import Mathlib

/-
Shallow embedding of the electricity-price-api TypeScript service.

Scope: src/services/dataService.ts, src/services/authService.ts and
src/middleware/auth.ts. JavaScript strings are modelled as lists of
characters; JavaScript numbers (as produced by parseFloat and consumed by
the mean computation) are modelled by an explicit NaN / Infinity / finite
split, with finite values as exact rationals (float64 rounding and
overflow of large finite literals are not modelled; no claim under study
depends on them). The CSV-text-to-record step performed by the csv-parse
library is taken as given: loadData is modelled from the parsed row list
onward, each row being the three raw column strings (an absent column is
modelled as the empty string, which the validation treats the same way).
-/

/-- A JavaScript string: a list of UTF-16 code units, modelled as chars. -/
abbrev JSString := List Char

/-- Literal helper: the char list of a Lean string literal. -/
def js (s : String) : JSString := s.data

/-- The whitespace characters stripped by String.prototype.trim and by
parseFloat (ASCII subset; exotic Unicode whitespace is not modelled). -/
def jsWhitespace (c : Char) : Bool :=
  c = ' ' ∨ c = '\t' ∨ c = '\n' ∨ c = '\r' ∨ c = '\x0c' ∨ c = '\x0b'

/-- JavaScript String.prototype.trim. -/
def jsTrim (l : JSString) : JSString :=
  ((l.dropWhile jsWhitespace).reverse.dropWhile jsWhitespace).reverse

/-- JavaScript String.prototype.split with a single-character separator:
every occurrence of the separator delimits a (possibly empty) field. -/
def splitOnChar (sep : Char) : List Char → List (List Char)
  | [] => [[]]
  | c :: cs =>
    if c = sep then [] :: splitOnChar sep cs
    else
      match splitOnChar sep cs with
      | [] => [[c]]
      | p :: ps => (c :: p) :: ps

/-- A JavaScript number as relevant here: NaN, a signed infinity, or a
finite value (finite values as exact rationals). -/
inductive JSNum where
  | nan
  | inf (pos : Bool)
  | num (q : ℚ)
  deriving DecidableEq

/-- The global isNaN applied to an already-numeric value. -/
def jsIsNaN : JSNum → Bool
  | .nan => true
  | _ => false

/-- Digit-string to natural number. -/
def digitsToNat (ds : List Char) : Nat :=
  ds.foldl (fun a c => a * 10 + (c.toNat - 48)) 0

/-- Longest decimal-mantissa prefix: digits, optionally a dot and more
digits; fails when no digit is present on either side of the dot.
Returns the value and the unconsumed rest. -/
def parseMantissa (cs : List Char) : Option (ℚ × List Char) :=
  let d1 := cs.takeWhile Char.isDigit
  let r1 := cs.dropWhile Char.isDigit
  match r1 with
  | '.' :: r2 =>
    let d2 := r2.takeWhile Char.isDigit
    let r3 := r2.dropWhile Char.isDigit
    if d1 = [] ∧ d2 = [] then none
    else some ((digitsToNat d1 : ℚ) + (digitsToNat d2 : ℚ) / (10 : ℚ) ^ d2.length, r3)
  | _ => if d1 = [] then none else some ((digitsToNat d1 : ℚ), r1)

/-- Exponent continuation after the mantissa: an e or E followed by an
optionally signed digit string; consumed only when at least one digit
follows, per the longest-valid-prefix rule of parseFloat. -/
def applyExponentAux (q : ℚ) (cs : List Char) : ℚ :=
  let signRest : Bool × List Char :=
    match cs with
    | '-' :: r => (true, r)
    | '+' :: r => (false, r)
    | _ => (false, cs)
  let d := signRest.2.takeWhile Char.isDigit
  if d = [] then q
  else if signRest.1 then q / (10 : ℚ) ^ digitsToNat d
  else q * (10 : ℚ) ^ digitsToNat d

def applyExponent (q : ℚ) (cs : List Char) : ℚ :=
  match cs with
  | 'e' :: rest => applyExponentAux q rest
  | 'E' :: rest => applyExponentAux q rest
  | _ => q

/-- Does the string start with the literal Infinity? -/
def startsWithInfinity : List Char → Bool
  | 'I' :: 'n' :: 'f' :: 'i' :: 'n' :: 'i' :: 't' :: 'y' :: _ => true
  | _ => false

/-- JavaScript parseFloat: strip leading whitespace, an optional sign,
then the Infinity literal or the longest decimal-literal prefix; NaN when
no prefix parses. -/
def parseFloat (s : JSString) : JSNum :=
  let cs := s.dropWhile jsWhitespace
  let signRest : Bool × List Char :=
    match cs with
    | '-' :: r => (true, r)
    | '+' :: r => (false, r)
    | _ => (false, cs)
  if startsWithInfinity signRest.2 then .inf (!signRest.1)
  else
    match parseMantissa signRest.2 with
    | none => .nan
    | some (q, rest) =>
      let q2 := applyExponent q rest
      .num (if signRest.1 then -q2 else q2)

/-- JavaScript + on numbers (finite arithmetic exact, NaN and infinity
propagation as in IEEE float64). -/
def jsAdd : JSNum → JSNum → JSNum
  | .nan, _ => .nan
  | _, .nan => .nan
  | .inf a, .inf b => if a = b then .inf a else .nan
  | .inf a, .num _ => .inf a
  | .num _, .inf b => .inf b
  | .num a, .num b => .num (a + b)

/-- JavaScript / by a positive record count (all call sites guard the
count to be nonzero first). -/
def jsDivNat (x : JSNum) (n : Nat) : JSNum :=
  match x with
  | .nan => .nan
  | .inf a => .inf a
  | .num q => .num (q / (n : ℚ))

/- ----------------------------------------------------------------- -/
/- DataService (src/services/dataService.ts)                          -/
/- ----------------------------------------------------------------- -/

/-- A validated in-memory price record (PriceRecord in src/types). -/
structure PriceRecord where
  state : JSString
  price : JSNum
  timestamp : JSString
  deriving DecidableEq

/-- A raw parsed CSV row as handed over by csv-parse: the three column
strings, before validation. -/
structure RawRecord where
  state : JSString
  price : JSString
  timestamp : JSString
  deriving DecidableEq

/-- The mutable fields of DataService: the record sequence and the
derived region index. -/
structure DataServiceState where
  data : List PriceRecord
  states : List JSString
  deriving DecidableEq

/-- The state right after the constructor ran: both fields empty. -/
def initDataService : DataServiceState := ⟨[], []⟩

/-- The row rejection test of loadData:
isNaN(parseFloat(record.price)), or a falsy (empty/absent) state or
timestamp field. -/
def rowInvalid (r : RawRecord) : Bool :=
  jsIsNaN (parseFloat r.price) || decide (r.state = []) || decide (r.timestamp = [])

/-- The record built from a valid row. -/
def toPriceRecord (r : RawRecord) : PriceRecord :=
  ⟨r.state, parseFloat r.price, r.timestamp⟩

/-- Insertion into the states Set: JS Sets keep first-insertion order and
ignore re-insertions. -/
def addState (acc : List JSString) (s : JSString) : List JSString :=
  if s ∈ acc then acc else acc ++ [s]

/-- The body of records.map inside loadData: validate each row in order,
accumulate the states set as a side effect, abort on the first invalid
row (the thrown Invalid-data-format error). -/
def parseRows : List RawRecord → List JSString → Except String (List PriceRecord × List JSString)
  | [], sts => .ok ([], sts)
  | r :: rest, sts =>
    if rowInvalid r then .error "Invalid data format"
    else
      match parseRows rest (addState sts r.state) with
      | .error e => .error e
      | .ok (ds, sts2) => .ok (toPriceRecord r :: ds, sts2)

/-- loadData. In the source, `this.data = records.map(...)` evaluates the
whole map before the field assignment, and `this.states` is assigned
after it; a thrown row error therefore leaves both fields untouched.
The result is the service state after the call, paired with the error
message when the call threw. -/
def loadData (st : DataServiceState) (records : List RawRecord) :
    DataServiceState × Option String :=
  match parseRows records [] with
  | .error e => (st, some ("Failed to parse CSV data: " ++ e))
  | .ok (ds, sts) => (⟨ds, sts⟩, none)

/-- getStateData: falsy (empty) state short-circuits to [], otherwise an
exact, case-sensitive filter. -/
def getStateData (st : DataServiceState) (state : JSString) : List PriceRecord :=
  if state = [] then []
  else st.data.filter (fun r => r.state = state)

/-- getMeanPrice: null when no record matches, otherwise the reduce-sum
of the matching prices divided by their count. -/
def getMeanPrice (st : DataServiceState) (state : JSString) : Option JSNum :=
  let stateData := getStateData st state
  if stateData.length = 0 then none
  else some (jsDivNat (stateData.foldl (fun sum r => jsAdd sum r.price) (.num 0))
    stateData.length)

/-- getAvailableStates returns (a copy of) the region index. -/
def getAvailableStates (st : DataServiceState) : List JSString := st.states

/-- The service states reachable from construction by loadData calls. -/
inductive Reachable : DataServiceState → Prop
  | init : Reachable initDataService
  | load (st : DataServiceState) (records : List RawRecord) (h : Reachable st) :
      Reachable (loadData st records).1

/-- The region index as recomputed by a successful load: the distinct
region values in first-seen order. -/
def firstSeen (l : List JSString) : List JSString := l.foldl addState []

/-- Modelled from the spec: the arithmetic mean of the price fields of
exactly those records whose region equals the query by exact string
comparison; none when no record matches. -/
def meanPriceSpec (data : List PriceRecord) (region : JSString) : Option JSNum :=
  let matching := data.filter (fun r => r.state = region)
  if matching = [] then none
  else some (jsDivNat (matching.foldl (fun sum r => jsAdd sum r.price) (.num 0))
    matching.length)

/- ----------------------------------------------------------------- -/
/- AuthService (src/services/authService.ts)                          -/
/- ----------------------------------------------------------------- -/

/-- The environment variables the auth service reads. An unset variable
is none; JavaScript truthiness additionally treats the empty string as
unset wherever the source tests the bare variable. -/
structure Env where
  jwtSecret : Option JSString
  apiUsers : Option JSString
  apiUsername : Option JSString
  apiPassword : Option JSString

/-- JavaScript truthiness of an optional string. -/
def envTruthy : Option JSString → Bool
  | none => false
  | some s => decide (s ≠ [])

/-- JS Map.set: overwrite the value in place when the key exists,
append otherwise (insertion order is preserved). -/
def mapSet (m : List (JSString × JSString)) (k v : JSString) :
    List (JSString × JSString) :=
  match m with
  | [] => [(k, v)]
  | (k2, v2) :: rest => if k2 = k then (k, v) :: rest else (k2, v2) :: mapSet rest k v

/-- JS Map.get: the value stored at the key, if any. -/
def mapGet (m : List (JSString × JSString)) (k : JSString) : Option JSString :=
  match m with
  | [] => none
  | (k2, v2) :: rest => if k2 = k then some v2 else mapGet rest k

/-- One entry of API_USERS: trim it, split on every colon, destructure
the first two fields, keep the pair only when both are truthy. -/
def parsePair (pair : JSString) : Option (JSString × JSString) :=
  match splitOnChar ':' (jsTrim pair) with
  | username :: password :: _ =>
    if username ≠ [] ∧ password ≠ [] then some (username, password) else none
  | _ => none

/-- The multi-user branch of loadUsersFromEnv: split API_USERS on commas
and fold the valid pairs into the map, later duplicates overwriting. -/
def parseApiUsers (apiUsers : JSString) : List (JSString × JSString) :=
  (splitOnChar ',' apiUsers).foldl
    (fun m pair =>
      match parsePair pair with
      | some (u, p) => mapSet m u p
      | none => m)
    []

/-- The legacy branch of loadUsersFromEnv: one entry from API_USERNAME
and API_PASSWORD when both are truthy, else nothing. -/
def legacyUsers (env : Env) : List (JSString × JSString) :=
  match env.apiUsername, env.apiPassword with
  | some u, some p => if u ≠ [] ∧ p ≠ [] then [(u, p)] else []
  | _, _ => []

/-- loadUsersFromEnv: when API_USERS is set and non-empty its parse
result is final (the function returns there even when no pair was
valid); only otherwise are the legacy variables consulted. -/
def loadUsersFromEnv (env : Env) : List (JSString × JSString) :=
  match env.apiUsers with
  | some apiUsers =>
    if apiUsers ≠ [] then parseApiUsers apiUsers
    else legacyUsers env
  | none => legacyUsers env

/-- The immutable fields of a constructed AuthService. -/
structure AuthService where
  users : List (JSString × JSString)
  jwtSecret : JSString
  deriving DecidableEq

/-- The AuthService constructor: fail fast without a truthy JWT_SECRET,
load the users, fail when the resulting set is empty. -/
def newAuthService (env : Env) : Except String AuthService :=
  match env.jwtSecret with
  | none => .error "JWT_SECRET environment variable is required"
  | some secret =>
    if secret = [] then .error "JWT_SECRET environment variable is required"
    else
      let users := loadUsersFromEnv env
      if users = [] then
        .error "No users found. Set API_USERS environment variable with format \"username1:password1,username2:password2\" or use legacy API_USERNAME and API_PASSWORD"
      else .ok ⟨users, secret⟩

/-- validateCredentials: false for a falsy username or password, else
strict equality between the stored password (undefined when the username
is unknown) and the supplied one. -/
def validateCredentials (svc : AuthService) (username password : JSString) : Bool :=
  if username = [] ∨ password = [] then false
  else decide (mapGet svc.users username = some password)

/-- The token payload (JWTPayload in src/types): username plus issue and
expiry instants in epoch seconds. -/
structure JWTPayload where
  username : JSString
  iat : Int
  exp : Int
  deriving DecidableEq

/-- A token string as far as the jsonwebtoken library distinguishes it:
empty, malformed (not a decodable three-part encoding), or the signed
encoding of a payload under a signing secret. The encoding is modelled
as tamper evident: a signed token carries exactly its payload and the
secret it was signed with. -/
inductive TokenStr where
  | empty
  | malformed (raw : JSString)
  | signed (payload : JWTPayload) (secret : JSString)
  deriving DecidableEq

/-- jwt.sign: produce the signed encoding of the payload. -/
def jwtSign (payload : JWTPayload) (secret : JSString) : TokenStr :=
  .signed payload secret

/-- jwt.verify: reject non-decodable input and signatures made with a
different secret, then reject when the clock has reached the exp claim;
otherwise return the decoded payload. Modelled with none for the throw
cases since the only caller catches every throw into null. -/
def jwtVerify (t : TokenStr) (secret : JSString) (now : Int) : Option JWTPayload :=
  match t with
  | .empty => none
  | .malformed _ => none
  | .signed p s =>
    if s = secret then (if now ≥ p.exp then none else some p) else none

/-- generateToken: payload with iat = now and exp = now + 24h, signed
with the configured secret. The two Date.now() reads of the source are
modelled as one clock parameter. -/
def generateToken (svc : AuthService) (username : JSString) (now : Int) : TokenStr :=
  jwtSign ⟨username, now, now + 24 * 60 * 60⟩ svc.jwtSecret

/-- validateToken: falsy (empty) input short-circuits to null, any throw
of jwt.verify is caught into null, otherwise the decoded payload. -/
def validateToken (svc : AuthService) (token : TokenStr) (now : Int) : Option JWTPayload :=
  match token with
  | .empty => none
  | _ => jwtVerify token svc.jwtSecret now

/-- Modelled from the spec: verifyToken returns invalid for empty input,
malformed encoding, an expiry not in the future (regardless of the
signature), or a bad signature; otherwise the decoded payload. -/
def verifyTokenSpec (svc : AuthService) (token : TokenStr) (now : Int) :
    Option JWTPayload :=
  match token with
  | .empty => none
  | .malformed _ => none
  | .signed p s =>
    if p.exp ≤ now then none
    else if s ≠ svc.jwtSecret then none
    else some p

/-- Well-formedness of the credential map guaranteed by construction:
distinct usernames, and no empty username or password. -/
def UsersWF (m : List (JSString × JSString)) : Prop :=
  (m.map Prod.fst).Nodup ∧ ∀ e ∈ m, e.1 ≠ [] ∧ e.2 ≠ []

/- ----------------------------------------------------------------- -/
/- Verification gate (src/middleware/auth.ts)                         -/
/- ----------------------------------------------------------------- -/

/-- The three observable outcomes of authMiddleware: the 401
Access-token-required response, the distinct 401 Invalid-token response,
and proceeding to the route with the decoded payload on the request. -/
inductive AuthOutcome where
  | missingCreds
  | invalidToken
  | proceed (payload : JWTPayload)
  deriving DecidableEq

/-- authMiddleware: a falsy (absent or empty) Authorization header, or a
split on spaces that is not exactly a Bearer scheme followed by one
non-empty part, answers the Access-token-required error; otherwise the
verifier decides between the Invalid-token error and proceeding. The
verifier is passed as a function, as the middleware only consumes the
validateToken capability of the auth service; it is total, so the
try/catch around it is not observable. -/
def authMiddleware (validate : JSString → Option JWTPayload)
    (authHeader : Option JSString) : AuthOutcome :=
  match authHeader with
  | none => .missingCreds
  | some h =>
    if h = [] then .missingCreds
    else
      match splitOnChar ' ' h with
      | [scheme, token] =>
        if scheme = js "Bearer" ∧ token ≠ [] then
          match validate token with
          | none => .invalidToken
          | some user => .proceed user
        else .missingCreds
      | _ => .missingCreds

/-- Interleaving the separator back between split fields; used to state
what a successful split says about the original string. -/
def joinWith (sep : Char) : List (List Char) → List Char
  | [] => []
  | [p] => p
  | p :: ps => p ++ sep :: joinWith sep ps

theorem rowInvalid_false_iff (r : RawRecord) :
    rowInvalid r = false ↔
      jsIsNaN (parseFloat r.price) = false ∧ r.state ≠ [] ∧ r.timestamp ≠ [] := by
  simp [rowInvalid, and_assoc]

theorem parseRows_ok (rs : List RawRecord) (h : ∀ r ∈ rs, rowInvalid r = false) :
    ∀ sts : List JSString,
      parseRows rs sts = .ok (rs.map toPriceRecord, rs.foldl (fun a r => addState a r.state) sts) := by
  induction rs with
  | nil => intro sts; rfl
  | cons r rest ih =>
    intro sts
    have hr : rowInvalid r = false := h r (List.mem_cons_self r rest)
    have hrest : ∀ x ∈ rest, rowInvalid x = false :=
      fun x hx => h x (List.mem_cons_of_mem r hx)
    simp [parseRows, hr, ih hrest]

theorem parseRows_error (rs : List RawRecord) (h : ∃ r ∈ rs, rowInvalid r = true) :
    ∀ sts : List JSString, parseRows rs sts = .error "Invalid data format" := by
  induction rs with
  | nil => simp at h
  | cons r rest ih =>
    intro sts
    by_cases hr : rowInvalid r = true
    · simp [parseRows, hr]
    · have hrest : ∃ x ∈ rest, rowInvalid x = true := by
        obtain ⟨x, hx, hxi⟩ := h
        rcases List.mem_cons.mp hx with hx1 | hx2
        · exact absurd (hx1 ▸ hxi) hr
        · exact ⟨x, hx2, hxi⟩
      simp [parseRows, hr, ih hrest]

theorem mem_addState (acc : List JSString) (a x : JSString) :
    x ∈ addState acc a ↔ x ∈ acc ∨ x = a := by
  unfold addState
  by_cases h : a ∈ acc
  · simp only [h, if_true]
    constructor
    · exact Or.inl
    · rintro (hx | rfl)
      · exact hx
      · exact h
  · simp [h]

theorem mem_foldl_addState (l : List JSString) :
    ∀ (acc : List JSString) (x : JSString),
      x ∈ l.foldl addState acc ↔ x ∈ acc ∨ x ∈ l := by
  induction l with
  | nil => simp
  | cons a rest ih =>
    intro acc x
    simp only [List.foldl_cons, ih, mem_addState, List.mem_cons]
    tauto

theorem nodup_foldl_addState (l : List JSString) :
    ∀ acc : List JSString, acc.Nodup → (l.foldl addState acc).Nodup := by
  induction l with
  | nil => exact fun acc h => h
  | cons a rest ih =>
    intro acc hacc
    apply ih
    unfold addState
    by_cases h : a ∈ acc
    · simpa [h] using hacc
    · simp [h, List.nodup_append, hacc]

theorem reachable_state_ne_nil (st : DataServiceState) (h : Reachable st) :
    ∀ r ∈ st.data, r.state ≠ [] := by
  induction h with
  | init => intro r hr; simp [initDataService] at hr
  | load st records _ ih =>
    intro r hr
    by_cases hv : ∃ x ∈ records, rowInvalid x = true
    · rw [loadData, parseRows_error records hv []] at hr
      exact ih r hr
    · have hall : ∀ x ∈ records, rowInvalid x = false := by
        intro x hx
        cases hb : rowInvalid x with
        | false => rfl
        | true => exact absurd ⟨x, hx, hb⟩ hv
      rw [loadData, parseRows_ok records hall []] at hr
      simp only at hr
      obtain ⟨raw, hraw, rfl⟩ := List.mem_map.mp hr
      exact ((rowInvalid_false_iff raw).mp (hall raw hraw)).2.1

/-- Claim C1: for every service state reachable by loads and every region
string, getMeanPrice equals the arithmetic mean of the prices of exactly
the records whose region matches by exact case-sensitive comparison, and
it is none (never zero, never an error) when no record matches — in
particular on the never-loaded initial state. -/
theorem claim1 (st : DataServiceState) (h : Reachable st) (region : JSString) :
    getMeanPrice st region = meanPriceSpec st.data region ∧
    getMeanPrice initDataService region = none := by
  constructor
  · by_cases hreg : region = []
    · subst hreg
      have hfilter : st.data.filter (fun r => r.state = ([] : JSString)) = [] := by
        rw [List.filter_eq_nil_iff]
        intro r hr
        simpa using reachable_state_ne_nil st h r hr
      simp [getMeanPrice, getStateData, meanPriceSpec, hfilter]
    · simp [getMeanPrice, getStateData, meanPriceSpec, hreg, List.length_eq_zero]
  · by_cases hreg : region = [] <;>
      simp [getMeanPrice, getStateData, initDataService, hreg]

theorem claim1_witness :
    getMeanPrice
        (loadData initDataService
          [⟨js "NSW", js "90", js "t1"⟩, ⟨js "NSW", js "80", js "t2"⟩]).1 (js "NSW") =
      meanPriceSpec
        (loadData initDataService
          [⟨js "NSW", js "90", js "t1"⟩, ⟨js "NSW", js "80", js "t2"⟩]).1.data (js "NSW") ∧
    getMeanPrice initDataService (js "NSW") = none :=
  claim1 _ (Reachable.load _ _ Reachable.init) (js "NSW")

/-- Claim C2: a load with any invalid row fails and leaves the record
sequence and region index exactly as they were; a load with only valid
rows succeeds and replaces both together with the snapshot computed from
the new rows. -/
theorem claim2 (st : DataServiceState) (records : List RawRecord) :
    ((∃ r ∈ records, rowInvalid r = true) →
      (loadData st records).1 = st ∧ ((loadData st records).2).isSome = true) ∧
    ((∀ r ∈ records, rowInvalid r = false) →
      (loadData st records).2 = none ∧
      (loadData st records).1 =
        ⟨records.map toPriceRecord, firstSeen (records.map RawRecord.state)⟩) := by
  constructor
  · intro hbad
    rw [loadData, parseRows_error records hbad []]
    exact ⟨rfl, rfl⟩
  · intro hgood
    rw [loadData, parseRows_ok records hgood []]
    refine ⟨rfl, ?_⟩
    simp only [firstSeen, List.foldl_map]

theorem claim2_witness :
    (loadData ⟨[⟨js "NSW", JSNum.num 90, js "t"⟩], [js "NSW"]⟩
        [⟨js "QLD", js "oops", js "t2"⟩]).1 =
      ⟨[⟨js "NSW", JSNum.num 90, js "t"⟩], [js "NSW"]⟩ ∧
    ((loadData ⟨[⟨js "NSW", JSNum.num 90, js "t"⟩], [js "NSW"]⟩
        [⟨js "QLD", js "oops", js "t2"⟩]).2).isSome = true :=
  (claim2 _ _).1 (by decide)

/-- Claim C3 counterexample: a row whose price is the string Infinity
parses to a value that is not a finite number, yet the load accepts it
and stores the infinite price — the claim that every non-finite price
(including an infinite value) fails the load is false, because the code
only tests isNaN. -/
theorem claim3_counterexample :
    parseFloat (js "Infinity") = JSNum.inf true ∧
    (loadData initDataService [⟨js "NSW", js "Infinity", js "t1"⟩]).2 = none ∧
    (loadData initDataService [⟨js "NSW", js "Infinity", js "t1"⟩]).1.data =
      [⟨js "NSW", JSNum.inf true, js "t1"⟩] := by
  decide

/-- Claim C3 (amended): the load succeeds exactly when every row passes
the row test, and a row is rejected exactly when parseFloat of its price
is NaN or its region or timestamp field is absent/empty; a price parsing
to positive or negative Infinity is not NaN and is accepted. -/
theorem claim3 (st : DataServiceState) (records : List RawRecord) :
    (loadData st records).2 = none ↔
      ∀ r ∈ records,
        jsIsNaN (parseFloat r.price) = false ∧ r.state ≠ [] ∧ r.timestamp ≠ [] := by
  constructor
  · intro hok r hr
    rw [← rowInvalid_false_iff]
    by_contra hne
    have hbad : ∃ x ∈ records, rowInvalid x = true := by
      refine ⟨r, hr, ?_⟩
      cases hb : rowInvalid r with
      | false => exact absurd hb hne
      | true => rfl
    rw [loadData, parseRows_error records hbad []] at hok
    simp at hok
  · intro hgood
    have hall : ∀ r ∈ records, rowInvalid r = false :=
      fun r hr => (rowInvalid_false_iff r).mpr (hgood r hr)
    rw [loadData, parseRows_ok records hall []]

theorem claim3_witness :
    (loadData initDataService [⟨js "NSW", js "90", js "t1"⟩]).2 = none :=
  (claim3 initDataService [⟨js "NSW", js "90", js "t1"⟩]).mpr (by decide)

/-- Claim C9: after a successful load the region index lists exactly the
distinct regions of the stored records — no duplicates, in first-seen
order, every record region indexed, every index entry backed by a
record — and getAvailableStates returns exactly that index (the model is
pure, so repeated calls without an intervening load return the same
sequence). -/
theorem claim9 (st : DataServiceState) (records : List RawRecord)
    (hok : (loadData st records).2 = none) :
    (loadData st records).1.states = firstSeen (records.map RawRecord.state) ∧
    (loadData st records).1.states.Nodup ∧
    (∀ r ∈ (loadData st records).1.data, r.state ∈ (loadData st records).1.states) ∧
    (∀ s ∈ (loadData st records).1.states,
      ∃ r ∈ (loadData st records).1.data, r.state = s) ∧
    getAvailableStates (loadData st records).1 = (loadData st records).1.states := by
  have hall : ∀ r ∈ records, rowInvalid r = false := by
    intro r hr
    have := (claim3 st records).mp hok r hr
    exact (rowInvalid_false_iff r).mpr this
  have hload := (claim2 st records).2 hall
  rw [hload.2]
  refine ⟨rfl, ?_, ?_, ?_, rfl⟩
  · exact nodup_foldl_addState _ [] List.nodup_nil
  · intro r hr
    obtain ⟨raw, hraw, rfl⟩ := List.mem_map.mp hr
    have : raw.state ∈ records.map RawRecord.state := List.mem_map_of_mem _ hraw
    rw [firstSeen, mem_foldl_addState]
    exact Or.inr this
  · intro s hs
    rw [firstSeen, mem_foldl_addState] at hs
    rcases hs with hs | hs
    · simp at hs
    · obtain ⟨raw, hraw, rfl⟩ := List.mem_map.mp hs
      exact ⟨toPriceRecord raw, List.mem_map_of_mem _ hraw, rfl⟩

theorem claim9_witness :
    (loadData initDataService
        [⟨js "NSW", js "90", js "t1"⟩, ⟨js "QLD", js "80", js "t2"⟩]).1.states.Nodup :=
  (claim9 initDataService
    [⟨js "NSW", js "90", js "t1"⟩, ⟨js "QLD", js "80", js "t2"⟩] (by decide)).2.1


theorem splitOnChar_ne_nil (sep : Char) (l : List Char) : splitOnChar sep l ≠ [] := by
  induction l with
  | nil => simp [splitOnChar]
  | cons c cs ih =>
    simp only [splitOnChar]
    by_cases h : c = sep
    · simp [h]
    · simp only [h, if_false]
      cases hs : splitOnChar sep cs with
      | nil => simp
      | cons p ps => simp

theorem not_mem_of_mem_splitOnChar (sep : Char) (l : List Char) :
    ∀ p ∈ splitOnChar sep l, sep ∉ p := by
  induction l with
  | nil =>
    intro p hp
    simp [splitOnChar] at hp
    simp [hp]
  | cons c cs ih =>
    intro p hp
    simp only [splitOnChar] at hp
    by_cases h : c = sep
    · simp only [h, if_true] at hp
      rcases List.mem_cons.mp hp with rfl | hp2
      · simp
      · exact ih p hp2
    · simp only [h, if_false] at hp
      cases hs : splitOnChar sep cs with
      | nil => exact absurd hs (splitOnChar_ne_nil sep cs)
      | cons q qs =>
        rw [hs] at hp
        rcases List.mem_cons.mp hp with rfl | hp2
        · intro hmem
          rcases List.mem_cons.mp hmem with rfl | hmem2
          · exact h rfl
          · exact ih q (hs ▸ List.mem_cons_self q qs) hmem2
        · exact ih p (hs ▸ List.mem_cons_of_mem q hp2)

theorem joinWith_splitOnChar (sep : Char) (l : List Char) :
    joinWith sep (splitOnChar sep l) = l := by
  induction l with
  | nil => rfl
  | cons c cs ih =>
    simp only [splitOnChar]
    by_cases h : c = sep
    · subst h
      simp only [if_true]
      cases hs : splitOnChar c cs with
      | nil => exact absurd hs (splitOnChar_ne_nil c cs)
      | cons q qs =>
        rw [hs] at ih
        simpa [joinWith] using ih
    · simp only [h, if_false]
      cases hs : splitOnChar sep cs with
      | nil => exact absurd hs (splitOnChar_ne_nil sep cs)
      | cons q qs =>
        rw [hs] at ih
        cases qs with
        | nil => simpa [joinWith] using ih
        | cons q2 qs2 => simpa [joinWith] using ih

theorem splitOnChar_append (sep : Char) (xs ys : List Char) (h : sep ∉ xs) :
    splitOnChar sep (xs ++ sep :: ys) = xs :: splitOnChar sep ys := by
  induction xs with
  | nil => simp [splitOnChar]
  | cons c cs ih =>
    have hc : ¬(c = sep) := fun hh => h (hh ▸ List.mem_cons_self c cs)
    have hcs : sep ∉ cs := fun hm => h (List.mem_cons_of_mem c hm)
    simp only [List.cons_append, splitOnChar, hc, if_false]
    rw [show splitOnChar sep (cs.append (sep :: ys)) = cs :: splitOnChar sep ys from ih hcs]

theorem splitOnChar_of_not_mem (sep : Char) (xs : List Char) (h : sep ∉ xs) :
    splitOnChar sep xs = [xs] := by
  induction xs with
  | nil => rfl
  | cons c cs ih =>
    have hc : ¬(c = sep) := fun hh => h (hh ▸ List.mem_cons_self c cs)
    have hcs : sep ∉ cs := fun hm => h (List.mem_cons_of_mem c hm)
    simp only [splitOnChar, hc, if_false, ih hcs]

/-- Claim C5: issuing a token and verifying it immediately, at the same
clock time and with the same secret, succeeds and yields a payload whose
username is the input and whose expiry minus issue time is 86400
seconds. -/
theorem claim5 (svc : AuthService) (username : JSString) (now : Int) :
    ∃ pl : JWTPayload,
      validateToken svc (generateToken svc username now) now = some pl ∧
      pl.username = username ∧ pl.exp - pl.iat = 86400 := by
  refine ⟨⟨username, now, now + 24 * 60 * 60⟩, ?_, rfl, ?_⟩
  · have hlt : ¬(now ≥ now + 24 * 60 * 60) := by omega
    simp [validateToken, generateToken, jwtSign, jwtVerify, hlt]
  · show now + 24 * 60 * 60 - now = 86400
    omega

/-- Claim C6: verifyToken is a total function returning the invalid
result for empty input, malformed encoding, a signature under a
different secret, and any token whose expiry is not in the future — the
last regardless of the signature — and the decoded payload for all other
tokens; this is exactly the spec-side decision table verifyTokenSpec. -/
theorem claim6 (svc : AuthService) (token : TokenStr) (now : Int) :
    validateToken svc token now = verifyTokenSpec svc token now := by
  cases token with
  | empty => rfl
  | malformed raw => rfl
  | signed p s =>
    simp only [validateToken, jwtVerify, verifyTokenSpec]
    by_cases hs : s = svc.jwtSecret
    · subst hs
      by_cases hexp : p.exp ≤ now <;> simp [hexp, ge_iff_le]
    · by_cases hexp : p.exp ≤ now <;> simp [hs, hexp, ge_iff_le]

/-- Claim C4 counterexample: with API_USERS set to a value that yields no
valid username:password pair and valid legacy credentials configured, the
claim says the legacy form is consulted so construction succeeds; in the
code the multi-user branch returns without consulting the legacy form, so
the user set is empty and construction fails with the no-users error. -/
theorem claim4_counterexample :
    legacyUsers ⟨some (js "s"), some (js "x"), some (js "u"), some (js "p")⟩ =
      [(js "u", js "p")] ∧
    loadUsersFromEnv ⟨some (js "s"), some (js "x"), some (js "u"), some (js "p")⟩ = [] ∧
    newAuthService ⟨some (js "s"), some (js "x"), some (js "u"), some (js "p")⟩ =
      .error "No users found. Set API_USERS environment variable with format \"username1:password1,username2:password2\" or use legacy API_USERNAME and API_PASSWORD" :=
  ⟨rfl, rfl, rfl⟩

/-- Claim C4 (amended): the legacy single-user form is consulted exactly
when the multi-user variable is unset or empty — not when it is set but
yields no valid pair; construction fails fast without a truthy signing
secret, and otherwise fails exactly when the credential set resolved
under this priority is empty. -/
theorem claim4 :
    (∀ env : Env, envTruthy env.apiUsers = false → loadUsersFromEnv env = legacyUsers env) ∧
    (∀ (env : Env) (s : JSString), env.apiUsers = some s → s ≠ [] →
      loadUsersFromEnv env = parseApiUsers s) ∧
    (∀ env : Env, envTruthy env.jwtSecret = false →
      newAuthService env = .error "JWT_SECRET environment variable is required") ∧
    (∀ env : Env, envTruthy env.jwtSecret = true →
      ((∃ e, newAuthService env = .error e) ↔ loadUsersFromEnv env = [])) := by
  refine ⟨?_, ?_, ?_, ?_⟩
  · intro env h
    rw [loadUsersFromEnv]
    cases henv : env.apiUsers with
    | none => rfl
    | some s =>
      rw [henv] at h
      simp only [envTruthy, decide_eq_false_iff_not, not_not] at h
      simp [h]
  · intro env s hs hne
    rw [loadUsersFromEnv, hs]
    simp [hne]
  · intro env h
    rw [newAuthService]
    cases henv : env.jwtSecret with
    | none => rfl
    | some s =>
      rw [henv] at h
      simp only [envTruthy, decide_eq_false_iff_not, not_not] at h
      simp [h]
  · intro env h
    cases henv : env.jwtSecret with
    | none => rw [henv] at h; simp [envTruthy] at h
    | some s =>
      rw [henv] at h
      simp only [envTruthy, decide_eq_true_eq] at h
      rw [newAuthService, henv]
      simp only [h, if_false]
      by_cases hu : loadUsersFromEnv env = []
      · simp [hu]
      · simp [hu]

theorem claim4_witness :
    newAuthService ⟨none, some (js "a:b"), none, none⟩ =
      .error "JWT_SECRET environment variable is required" :=
  claim4.2.2.1 ⟨none, some (js "a:b"), none, none⟩ (by decide)

theorem mem_map_fst_mapSet (m : List (JSString × JSString)) (k v x : JSString) :
    x ∈ (mapSet m k v).map Prod.fst ↔ x ∈ m.map Prod.fst ∨ x = k := by
  induction m with
  | nil => simp [mapSet]
  | cons e rest ih =>
    obtain ⟨k2, v2⟩ := e
    rw [mapSet]
    by_cases h : k2 = k
    · rw [if_pos h]
      subst h
      simp only [List.map_cons, List.mem_cons]
      tauto
    · rw [if_neg h]
      simp only [List.map_cons, List.mem_cons, ih]
      tauto

theorem nodup_map_fst_mapSet (m : List (JSString × JSString)) (k v : JSString)
    (h : (m.map Prod.fst).Nodup) : ((mapSet m k v).map Prod.fst).Nodup := by
  induction m with
  | nil => simp [mapSet]
  | cons e rest ih =>
    obtain ⟨k2, v2⟩ := e
    rw [mapSet]
    simp only [List.map_cons, List.nodup_cons] at h
    by_cases hk : k2 = k
    · rw [if_pos hk]
      subst hk
      simp only [List.map_cons, List.nodup_cons]
      exact h
    · rw [if_neg hk]
      simp only [List.map_cons, List.nodup_cons]
      refine ⟨?_, ih h.2⟩
      rw [mem_map_fst_mapSet]
      rintro (hm | hm)
      · exact h.1 hm
      · exact hk hm

theorem mem_mapSet (m : List (JSString × JSString)) (k v : JSString)
    (e : JSString × JSString) (h : e ∈ mapSet m k v) : e = (k, v) ∨ e ∈ m := by
  induction m with
  | nil => simpa [mapSet] using h
  | cons e2 rest ih =>
    obtain ⟨k2, v2⟩ := e2
    rw [mapSet] at h
    by_cases hk : k2 = k
    · rw [if_pos hk] at h
      rcases List.mem_cons.mp h with heq | hmem
      · exact Or.inl heq
      · exact Or.inr (List.mem_cons_of_mem _ hmem)
    · rw [if_neg hk] at h
      rcases List.mem_cons.mp h with heq | hmem
      · refine Or.inr ?_
        rw [heq]
        exact List.mem_cons_self _ _
      · rcases ih hmem with h2 | h2
        · exact Or.inl h2
        · exact Or.inr (List.mem_cons_of_mem _ h2)

theorem mapGet_of_mem (m : List (JSString × JSString))
    (hnd : (m.map Prod.fst).Nodup) (u p : JSString) (h : (u, p) ∈ m) :
    mapGet m u = some p := by
  induction m with
  | nil => simp at h
  | cons e rest ih =>
    obtain ⟨k2, v2⟩ := e
    simp only [List.map_cons, List.nodup_cons] at hnd
    rcases List.mem_cons.mp h with heq | hmem
    · injection heq with h1 h2
      subst h1
      subst h2
      simp [mapGet]
    · have hne : ¬(k2 = u) := by
        intro hk
        subst hk
        exact hnd.1 (List.mem_map_of_mem Prod.fst hmem)
      rw [mapGet, if_neg hne]
      exact ih hnd.2 hmem

theorem parsePair_some (pair u p : JSString) (h : parsePair pair = some (u, p)) :
    u ≠ [] ∧ p ≠ [] ∧ (':' : Char) ∉ p := by
  rw [parsePair] at h
  cases hsp : splitOnChar ':' (jsTrim pair) with
  | nil => rw [hsp] at h; exact absurd h (by simp)
  | cons a rest =>
    cases rest with
    | nil => rw [hsp] at h; exact absurd h (by simp)
    | cons b rest2 =>
      rw [hsp] at h
      have h2 : (if a ≠ [] ∧ b ≠ [] then some ((a : JSString), (b : JSString)) else none) =
          some (u, p) := h
      by_cases hc : a ≠ [] ∧ b ≠ []
      · rw [if_pos hc] at h2
        injection h2 with h3
        injection h3 with ha hb
        subst ha
        subst hb
        refine ⟨hc.1, hc.2, ?_⟩
        refine not_mem_of_mem_splitOnChar ':' (jsTrim pair) b ?_
        rw [hsp]
        exact List.mem_cons_of_mem a (List.mem_cons_self b rest2)
      · rw [if_neg hc] at h2
        exact absurd h2 (by simp)

theorem usersWF_parseApiUsers (s : JSString) : UsersWF (parseApiUsers s) := by
  rw [parseApiUsers]
  have hgen : ∀ (pairs : List JSString) (m : List (JSString × JSString)),
      UsersWF m →
      UsersWF (pairs.foldl
        (fun m pair =>
          match parsePair pair with
          | some (u, p) => mapSet m u p
          | none => m) m) := by
    intro pairs
    induction pairs with
    | nil => exact fun m hm => hm
    | cons a rest ih =>
      intro m hm
      rw [List.foldl_cons]
      apply ih
      cases hp : parsePair a with
      | none => simpa [hp] using hm
      | some up =>
        obtain ⟨u, p⟩ := up
        obtain ⟨hu, hpne, _⟩ := parsePair_some a u p hp
        simp only [hp]
        constructor
        · exact nodup_map_fst_mapSet m u p hm.1
        · intro e he
          rcases mem_mapSet m u p e he with heq | he2
          · rw [heq]
            exact ⟨hu, hpne⟩
          · exact hm.2 e he2
  exact hgen (splitOnChar ',' s) [] ⟨List.nodup_nil, by simp⟩

theorem usersWF_legacyUsers (env : Env) : UsersWF (legacyUsers env) := by
  rw [legacyUsers]
  cases env.apiUsername with
  | none => exact ⟨List.nodup_nil, by simp⟩
  | some u =>
    cases env.apiPassword with
    | none => exact ⟨List.nodup_nil, by simp⟩
    | some p =>
      show UsersWF (if u ≠ [] ∧ p ≠ [] then [(u, p)] else [])
      by_cases h : u ≠ [] ∧ p ≠ []
      · rw [if_pos h]
        refine ⟨by simp, ?_⟩
        intro e he
        simp only [List.mem_singleton] at he
        rw [he]
        exact h
      · rw [if_neg h]
        exact ⟨List.nodup_nil, by simp⟩

theorem usersWF_loadUsers (env : Env) : UsersWF (loadUsersFromEnv env) := by
  rw [loadUsersFromEnv]
  cases env.apiUsers with
  | none => exact usersWF_legacyUsers env
  | some s =>
    show UsersWF (if s ≠ [] then parseApiUsers s else legacyUsers env)
    by_cases hs : s ≠ []
    · rw [if_pos hs]
      exact usersWF_parseApiUsers s
    · rw [if_neg hs]
      exact usersWF_legacyUsers env

theorem newAuthService_ok_users (env : Env) (svc : AuthService)
    (h : newAuthService env = .ok svc) : svc.users = loadUsersFromEnv env := by
  simp only [newAuthService] at h
  split at h
  · exact absurd h (by simp)
  · split at h
    · exact absurd h (by simp)
    · split at h
      · exact absurd h (by simp)
      · injection h with h2
        rw [← h2]

/-- Claim C7: verifyCredentials is a total function that answers true
for every pair present in the constructed credential set, and true only
when the username is non-empty, the password is non-empty, and the
stored password for that username exists and matches exactly — so any
mutation of either field, an unknown username, an empty argument, or a
never-loaded username yields false. -/
theorem claim7 (env : Env) (svc : AuthService) (h : newAuthService env = .ok svc) :
    (∀ u p, (u, p) ∈ svc.users → validateCredentials svc u p = true) ∧
    (∀ u p, validateCredentials svc u p = true ↔
      u ≠ [] ∧ p ≠ [] ∧ mapGet svc.users u = some p) := by
  have hwf : UsersWF svc.users := by
    rw [newAuthService_ok_users env svc h]
    exact usersWF_loadUsers env
  obtain ⟨hnd, hne⟩ := hwf
  constructor
  · intro u p hmem
    have hup := hne (u, p) hmem
    have hget := mapGet_of_mem svc.users hnd u p hmem
    rw [validateCredentials, if_neg (by push_neg; exact ⟨hup.1, hup.2⟩), hget]
    simp
  · intro u p
    constructor
    · intro hv
      rw [validateCredentials] at hv
      by_cases hor : u = [] ∨ p = []
      · rw [if_pos hor] at hv
        exact absurd hv (by simp)
      · rw [if_neg hor] at hv
        push_neg at hor
        exact ⟨hor.1, hor.2, of_decide_eq_true hv⟩
    · rintro ⟨hu, hp, hget⟩
      rw [validateCredentials, if_neg (by push_neg; exact ⟨hu, hp⟩), hget]
      simp

theorem claim7_witness :
    validateCredentials ⟨[(js "alice", js "pw")], js "s"⟩ (js "alice") (js "pw") = true :=
  (claim7 ⟨some (js "s"), some (js "alice:pw"), none, none⟩
    ⟨[(js "alice", js "pw")], js "s"⟩ rfl).1 (js "alice") (js "pw") (by decide)

/-- Claim C10: an API_USERS entry is split on every colon and only the
first two fields are used, so an entry of the shape user:p1:p2 stores
the password p1 and silently discards everything after the second colon;
consequently no password stored through the multi-user form can contain
a colon. -/
theorem claim10 :
    (∀ (env : Env) (s u p1 p2 : JSString),
      env.apiUsers = some s →
      s = u ++ ':' :: (p1 ++ ':' :: p2) →
      (',' : Char) ∉ s → (':' : Char) ∉ u → (':' : Char) ∉ p1 →
      u ≠ [] → p1 ≠ [] → jsTrim s = s →
      loadUsersFromEnv env = [(u, p1)]) ∧
    (∀ (s u p : JSString), (u, p) ∈ parseApiUsers s → (':' : Char) ∉ p) := by
  constructor
  · intro env s u p1 p2 hs hshape hcomma hcu hcp1 hu hp1 htrim
    have hsne : s ≠ [] := by
      rw [hshape]
      cases u with
      | nil => exact absurd rfl hu
      | cons c cs => simp
    have hpp : parsePair s = some (u, p1) := by
      rw [parsePair, htrim, hshape]
      rw [splitOnChar_append ':' u (p1 ++ ':' :: p2) hcu]
      rw [splitOnChar_append ':' p1 p2 hcp1]
      show (if u ≠ [] ∧ p1 ≠ [] then some (u, p1) else none) = some (u, p1)
      rw [if_pos ⟨hu, hp1⟩]
    rw [loadUsersFromEnv, hs]
    show (if s ≠ [] then parseApiUsers s else legacyUsers env) = [(u, p1)]
    rw [if_pos hsne, parseApiUsers, splitOnChar_of_not_mem ',' s hcomma]
    simp only [List.foldl_cons, List.foldl_nil, hpp]
    rfl
  · intro s u p hmem
    rw [parseApiUsers] at hmem
    have hgen : ∀ (pairs : List JSString) (m : List (JSString × JSString)),
        (∀ e ∈ m, (':' : Char) ∉ e.2) →
        ∀ e ∈ pairs.foldl
          (fun m pair =>
            match parsePair pair with
            | some (u, p) => mapSet m u p
            | none => m) m,
          (':' : Char) ∉ e.2 := by
      intro pairs
      induction pairs with
      | nil => exact fun m hm => hm
      | cons a rest ih =>
        intro m hm
        rw [List.foldl_cons]
        apply ih
        cases hp : parsePair a with
        | none => simpa [hp] using hm
        | some up =>
          obtain ⟨u2, p2⟩ := up
          obtain ⟨_, _, hcolon⟩ := parsePair_some a u2 p2 hp
          simp only [hp]
          intro e he
          rcases mem_mapSet m u2 p2 e he with heq | he2
          · rw [heq]
            exact hcolon
          · exact hm e he2
    exact hgen (splitOnChar ',' s) [] (by simp) (u, p) hmem

theorem claim10_witness :
    loadUsersFromEnv ⟨some (js "k"), some (js "alice:p1:p2"), none, none⟩ =
      [(js "alice", js "p1")] :=
  claim10.1 ⟨some (js "k"), some (js "alice:p1:p2"), none, none⟩ (js "alice:p1:p2")
    (js "alice") (js "p1") (js "p2") rfl (by decide) (by decide) (by decide) (by decide)
    (by decide) (by decide) (by decide)

/-- Claim C8: the gate answers the no-credentials error for an absent
header and for every present header that is not exactly a Bearer scheme,
one space, and one non-empty token (so wrong scheme, missing token, or
extra parts), a case distinct from the invalid-token error; for a header
of exactly that form the verifier alone decides: rejection yields the
invalid-token error, acceptance proceeds with the decoded payload. -/
theorem claim8 (validate : JSString → Option JWTPayload) :
    authMiddleware validate none = AuthOutcome.missingCreds ∧
    (∀ t : JSString, t ≠ [] → (' ' : Char) ∉ t →
      authMiddleware validate (some (js "Bearer " ++ t)) =
        match validate t with
        | none => AuthOutcome.invalidToken
        | some user => AuthOutcome.proceed user) ∧
    (∀ h : JSString,
      (¬ ∃ t : JSString, t ≠ [] ∧ (' ' : Char) ∉ t ∧ h = js "Bearer " ++ t) →
      authMiddleware validate (some h) = AuthOutcome.missingCreds) := by
  refine ⟨rfl, ?_, ?_⟩
  · intro t htne htsp
    have hset : js "Bearer " ++ t = js "Bearer" ++ ' ' :: t := rfl
    have hne : js "Bearer " ++ t ≠ [] := by
      rw [hset]
      simp
    have hnosp : (' ' : Char) ∉ js "Bearer" := by decide
    rw [authMiddleware]
    simp only [hne, if_false]
    rw [hset, splitOnChar_append ' ' (js "Bearer") t hnosp,
      splitOnChar_of_not_mem ' ' t htsp]
    exact if_pos (⟨rfl, htne⟩ : js "Bearer" = js "Bearer" ∧ t ≠ [])
  · intro h hnot
    by_cases hnil : h = []
    · rw [authMiddleware]
      simp [hnil]
    · rw [authMiddleware]
      simp only [hnil, if_false]
      cases hsp : splitOnChar ' ' h with
      | nil => rfl
      | cons a rest =>
        cases rest with
        | nil => rfl
        | cons b rest2 =>
          cases rest2 with
          | cons c rest3 => rfl
          | nil =>
            by_cases hcond : a = js "Bearer" ∧ b ≠ []
            · exfalso
              apply hnot
              refine ⟨b, hcond.2, ?_, ?_⟩
              · exact not_mem_of_mem_splitOnChar ' ' h b
                  (hsp ▸ List.mem_cons_of_mem a (List.mem_cons_self b []))
              · have hjoin := joinWith_splitOnChar ' ' h
                rw [hsp] at hjoin
                have hjoin2 : a ++ ' ' :: b = h := hjoin
                rw [← hjoin2, hcond.1]
                rfl
            · exact if_neg hcond

theorem claim8_witness :
    authMiddleware (fun _ => none) (some (js "Bearer " ++ js "tok")) =
      AuthOutcome.invalidToken :=
  (claim8 (fun _ => none)).2.1 (js "tok") (by decide) (by decide)
